import Mathlib

/-!
Verification of the gallery navigation and directory-state model of
`app.py` (a Streamlit image-gallery viewer).  The Python source is
shallowly embedded: filesystem access is abstracted as explicit function
parameters, Python exceptions become `Option`, and the reactive render
pass becomes an explicit function from the previous selection and the
freshly rebuilt file list to the next selection.
-/

/-- The fixed extension list from `app.py` line 25
(`["png", "jpg", "jpeg", "bmp", "gif"]`). -/
def image_extensions : List String := ["png", "jpg", "jpeg", "bmp", "gif"]

/-- `os.path.join(path, name)` for a relative `name` (directory entries are
never absolute): if `path` is empty or already ends with the separator the
two parts are concatenated, otherwise a `/` is inserted. -/
def pathJoin (path name : String) : String :=
  if path = "" ∨ path.data.getLast? = some '/' then path ++ name else path ++ "/" ++ name

/-- One pattern of `glob.glob(os.path.join(path, "*." ++ ext))` applied to a
directory entry name, with POSIX semantics: matching is case-sensitive
(`os.path.normcase` is the identity on POSIX) and the `*` wildcard does not
match a leading dot, so hidden entries are skipped. -/
def globMatch (ext name : String) : Bool :=
  (match name.data with
   | [] => false
   | c :: _ => c != '.') &&
  ("." ++ ext).data.isSuffixOf name.data

/-- A directory's immediate children, as the names `os.scandir` yields
(in arbitrary disk order). -/
structure Dir where
  entries : List String

/-- The filesystem seen by `app.py`: maps a path to its listing, `none`
when `os.path.isdir` is false (missing path or not a directory). -/
def FS := String → Option Dir

/-- Embedding of `get_image_files` (`app.py` lines 20-29): an empty or
falsy path or a non-directory yields `[]`; otherwise the glob results of
the five extension patterns are concatenated and sorted. `path = none`
models Python `None` (the `image_dir = None` initialisation). -/
def get_image_files (fs : FS) (path : Option String) : List String :=
  match path with
  | none => []
  | some p =>
    if p = "" then []
    else
      match fs p with
      | none => []
      | some d =>
        let image_files := image_extensions.flatMap (fun ext =>
          (d.entries.filter (fun n => globMatch ext n)).map (fun n => pathJoin p n))
        List.insertionSort (· ≤ ·) image_files

/-- Spec-side notion for C2: a name whose extension case-insensitively
matches one of the recognised extensions (the claim's wording). -/
def ciMatches (name : String) : Bool :=
  image_extensions.any (fun e =>
    ("." ++ e).data.isSuffixOf (name.data.map Char.toLower))

/-- A name matched by at least one of the code's five glob patterns. -/
def someGlobMatch (name : String) : Bool :=
  image_extensions.any (fun e => globMatch e name)

theorem pathJoin_ne_empty (p n : String) (hp : p ≠ "") : pathJoin p n ≠ "" := by
  unfold pathJoin
  intro h
  split at h
  · have : (p ++ n).data = p.data ++ n.data := String.data_append p n
    rw [h] at this
    have hpd : p.data = [] := by
      have := List.append_eq_nil.mp this.symm
      exact this.1
    exact hp (by cases p with | mk d => simpa using congrArg String.mk hpd)
  · have : (p ++ "/" ++ n).data = (p.data ++ "/".data) ++ n.data := by
      rw [String.data_append, String.data_append]
    rw [h] at this
    have := List.append_eq_nil.mp this.symm
    have h2 := List.append_eq_nil.mp this.1
    exact absurd h2.2 (by simp [String.data])

theorem pathJoin_injOn (p : String) : ∀ n₁ n₂, pathJoin p n₁ = pathJoin p n₂ → n₁ = n₂ := by
  intro n₁ n₂ h
  unfold pathJoin at h
  split at h <;>
  · have := congrArg String.data h
    simp only [String.data_append] at this
    have := List.append_cancel_left this
    exact String.toList_inj.mp this

theorem globMatch_suffix {ext name : String} (h : globMatch ext name = true) :
    ("." ++ ext).data <:+ name.data := by
  unfold globMatch at h
  have := (Bool.and_eq_true _ _).mp h
  exact List.isSuffixOf_iff_suffix.mp this.2

theorem pattern_suffix_exclusive :
    ∀ e₁ ∈ image_extensions, ∀ e₂ ∈ image_extensions, e₁ ≠ e₂ →
      ¬ ("." ++ e₁).data <:+ ("." ++ e₂).data := by decide

theorem globMatch_exclusive (name : String) :
    ∀ e₁ ∈ image_extensions, ∀ e₂ ∈ image_extensions, e₁ ≠ e₂ →
      ¬(globMatch e₁ name = true ∧ globMatch e₂ name = true) := by
  rintro e₁ h₁ e₂ h₂ hne ⟨g₁, g₂⟩
  rcases List.suffix_or_suffix_of_suffix (globMatch_suffix g₁) (globMatch_suffix g₂) with h | h
  · exact pattern_suffix_exclusive e₁ h₁ e₂ h₂ hne h
  · exact pattern_suffix_exclusive e₂ h₂ e₁ h₁ (Ne.symm hne) h

theorem filter_or_perm {α : Type} (p q : α → Bool) (l : List α)
    (hdisj : ∀ a, ¬(p a = true ∧ q a = true)) :
    (l.filter (fun a => p a || q a)).Perm (l.filter p ++ l.filter q) := by
  induction l with
  | nil => simp
  | cons a t ih =>
    by_cases hp : p a = true
    · have hq : ¬ q a = true := fun hq => hdisj a ⟨hp, hq⟩
      simp only [List.filter_cons, hp, hq, Bool.true_or, if_true, if_false,
        Bool.not_eq_true] at *
      simpa using ih.cons a
    · by_cases hq : q a = true
      · simp only [List.filter_cons, hq, Bool.or_true, if_true,
          Bool.not_eq_true] at *
        simp only [hp, if_false]
        exact (ih.cons a).trans List.perm_middle.symm
      · simp only [List.filter_cons, Bool.not_eq_true] at *
        simp only [hp, hq, Bool.or_self, if_false]
        exact ih

theorem flatMap_glob_perm (p : String) (l : List String) :
    ∀ exts : List String, exts.Nodup →
      (∀ e₁ ∈ exts, ∀ e₂ ∈ exts, e₁ ≠ e₂ → ∀ n,
        ¬(globMatch e₁ n = true ∧ globMatch e₂ n = true)) →
      (exts.flatMap (fun ext =>
          (l.filter (fun n => globMatch ext n)).map (fun n => pathJoin p n))).Perm
        ((l.filter (fun n => exts.any (fun e => globMatch e n))).map
          (fun n => pathJoin p n)) := by
  intro exts
  induction exts with
  | nil => simp
  | cons e es ih =>
    intro hnd hex
    have hdisj : ∀ n, ¬(globMatch e n = true ∧ (es.any (fun f => globMatch f n)) = true) := by
      rintro n ⟨h₁, h₂⟩
      obtain ⟨f, hf, hgf⟩ := List.any_eq_true.mp h₂
      have hne : e ≠ f := by
        rintro rfl
        exact (List.nodup_cons.mp hnd).1 hf
      exact hex e (List.mem_cons_self e es) f (List.mem_cons_of_mem e hf) hne n ⟨h₁, hgf⟩
    have hIH := ih (List.nodup_cons.mp hnd).2
      (fun e₁ h₁ e₂ h₂ hne n => hex e₁ (List.mem_cons_of_mem e h₁)
        e₂ (List.mem_cons_of_mem e h₂) hne n)
    simp only [List.flatMap_cons]
    have hfun : (fun n => (e :: es).any (fun f => globMatch f n)) =
        (fun n => globMatch e n || es.any (fun f => globMatch f n)) := by
      funext n; simp [List.any_cons]
    rw [hfun]
    refine (hIH.append_left _).trans ?_
    rw [← List.map_append]
    exact ((filter_or_perm _ _ l hdisj).map _).symm

theorem get_image_files_eq (fs : FS) (p : String) (d : Dir)
    (hp : p ≠ "") (hfs : fs p = some d) :
    get_image_files fs (some p) =
      List.insertionSort (· ≤ ·) (image_extensions.flatMap (fun ext =>
        (d.entries.filter (fun n => globMatch ext n)).map (fun n => pathJoin p n))) := by
  unfold get_image_files
  simp [hp, hfs]

/-- C2 (amended): for a directory whose (distinct) entries contain N names
that do not begin with a dot and end (case-sensitively) in one of
`.png .jpg .jpeg .bmp .gif`, `get_image_files` returns exactly those N
entries joined to the directory path, with no duplicates, sorted ascending
by full path string. -/
theorem get_image_files_spec (fs : FS) (p : String) (d : Dir)
    (hp : p ≠ "") (hfs : fs p = some d) (hnd : d.entries.Nodup) :
    (get_image_files fs (some p)).Perm
      ((d.entries.filter someGlobMatch).map (fun n => pathJoin p n)) ∧
    List.Sorted (· ≤ ·) (get_image_files fs (some p)) ∧
    (get_image_files fs (some p)).Nodup := by
  have hperm : (get_image_files fs (some p)).Perm
      ((d.entries.filter someGlobMatch).map (fun n => pathJoin p n)) := by
    rw [get_image_files_eq fs p d hp hfs]
    refine (List.perm_insertionSort _ _).trans ?_
    exact flatMap_glob_perm p d.entries image_extensions (by decide)
      (fun e₁ h₁ e₂ h₂ hne n => globMatch_exclusive n e₁ h₁ e₂ h₂ hne)
  refine ⟨hperm, ?_, ?_⟩
  · rw [get_image_files_eq fs p d hp hfs]
    exact List.sorted_insertionSort _ _
  · refine hperm.nodup_iff.mpr ?_
    exact (hnd.filter _).map_on
      (fun x _ y _ hxy => pathJoin_injOn p x y hxy)

/-- A sample filesystem with one directory holding an uppercase-extension
file, a hidden image file and a plain lowercase one. -/
def exFS2 : FS := fun q => if q = "pics" then some ⟨["a.PNG", ".b.png", "c.png"]⟩ else none

/-- C2 counterexample: `a.PNG` and `.b.png` both case-insensitively match a
recognised extension, yet `get_image_files` (POSIX `glob` semantics:
case-sensitive, hidden files skipped) returns only `pics/c.png`, so the
claim's promised N = 3 entries are not returned. -/
theorem get_image_files_case_cex :
    ciMatches "a.PNG" = true ∧ ciMatches ".b.png" = true ∧
    get_image_files exFS2 (some "pics") = ["pics/c.png"] := by
  refine ⟨by decide, by decide, by decide⟩

/-- C4: a `None`, empty, non-existent or non-directory path makes
`get_image_files` return the empty list (and, being a total function, it
cannot raise); the rest of the pipeline then runs on that empty list. -/
theorem get_image_files_invalid (fs : FS) :
    get_image_files fs none = [] ∧
    get_image_files fs (some "") = [] ∧
    (∀ p, fs p = none → get_image_files fs (some p) = []) := by
  refine ⟨rfl, rfl, fun p hp => ?_⟩
  unfold get_image_files
  by_cases h : p = ""
  · simp [h]
  · simp [h, hp]

/-- Witness for C4 at a concrete filesystem with no directories. -/
theorem get_image_files_invalid_witness :
    get_image_files (fun _ => none) (some "nosuch") = [] :=
  (get_image_files_invalid (fun _ => none)).2.2 "nosuch" rfl

/-- Witness for C2 (amended) at the concrete sample filesystem. -/
theorem get_image_files_spec_witness :
    (get_image_files exFS2 (some "pics")).Perm
      (((Dir.mk ["a.PNG", ".b.png", "c.png"]).entries.filter someGlobMatch).map
        (fun n => pathJoin "pics" n)) ∧
    List.Sorted (· ≤ ·) (get_image_files exFS2 (some "pics")) ∧
    (get_image_files exFS2 (some "pics")).Nodup :=
  get_image_files_spec exFS2 "pics" (Dir.mk ["a.PNG", ".b.png", "c.png"])
    (by decide) rfl (by decide)

theorem mem_get_image_files_ne_empty (fs : FS) (p : Option String) (f : String)
    (h : f ∈ get_image_files fs p) : f ≠ "" := by
  match p with
  | none => simp [get_image_files] at h
  | some q =>
    by_cases hq : q = ""
    · simp [get_image_files, hq] at h
    · match hfs : fs q with
      | none =>
        rw [(get_image_files_invalid fs).2.2 q hfs] at h
        simp at h
      | some d =>
        rw [get_image_files_eq fs q d hq hfs] at h
        rw [List.mem_insertionSort] at h
        obtain ⟨ext, _, hmem⟩ := List.mem_flatMap.mp h
        obtain ⟨n, _, rfl⟩ := List.mem_map.mp hmem
        exact pathJoin_ne_empty q n hq

/-- Embedding of `image_files.index(st.session_state.selected_image)`
(`app.py` line 105): `none` models the `ValueError` raised when the value
is absent; otherwise the first index, as Python `list.index` returns. -/
def image_index (files : List String) (sel : String) : Option Nat :=
  if sel ∈ files then some (List.indexOf sel files) else none

/-- Embedding of the reconcile step (`app.py` lines 86-87): the selection
is cleared when it is truthy (Python: non-`None` and non-empty) and not an
element of the freshly rebuilt list. -/
def reconcile (sel : Option String) (files : List String) : Option String :=
  match sel with
  | none => none
  | some s => if s ≠ "" ∧ s ∉ files then none else some s

/-- The selection state after one full render of the gallery tab
(`app.py` lines 84-134): first the reconcile check, then — when the list is
non-empty and a selection is set — the focused view looks the selection up,
and its `ValueError` handler (lines 130-134) resets to the gallery when the
lookup fails. -/
def render_pass (sel : Option String) (files : List String) : Option String :=
  let sel' := reconcile sel files
  if files.isEmpty then sel'
  else
    match sel' with
    | none => none
    | some s =>
      match image_index files s with
      | some _ => some s
      | none => none

/-- C1: after the reconcile step (and the focused view's defensive
`ValueError` fallback) of a render pass, a still-set selection is an
element of the current image file list.  The truthiness hypothesis (the
selection, if set, is a non-empty string) is discharged by the second
conjunct: every path `get_image_files` can ever hand to the selection is
non-empty. -/
theorem render_pass_selection_invariant :
    (∀ (sel : Option String) (files : List String) (s : String),
      (∀ t, sel = some t → t ≠ "") →
      render_pass sel files = some s → s ∈ files) ∧
    (∀ (fs : FS) (p : Option String) (f : String),
      f ∈ get_image_files fs p → f ≠ "") := by
  constructor
  · intro sel files s hne h
    match sel with
    | none =>
      have hn : render_pass none files = none := by
        simp only [render_pass, reconcile]
        split <;> rfl
      rw [hn] at h
      exact absurd h (by simp)
    | some t =>
      have ht : t ≠ "" := hne t rfl
      by_cases hm : t ∈ files
      · have hrec : reconcile (some t) files = some t := by
          simp [reconcile, hm]
        have hne2 : files.isEmpty = false := by
          cases files with
          | nil => exact absurd hm (by simp)
          | cons a l => rfl
        have hidx : image_index files t = some (List.indexOf t files) := by
          unfold image_index; rw [if_pos hm]
        simp only [render_pass, hrec, hne2, Bool.false_eq_true, if_false, hidx] at h
        cases h
        exact hm
      · have hrec : reconcile (some t) files = none := by
          simp [reconcile, ht, hm]
        simp only [render_pass, hrec] at h
        split at h
        · exact absurd h (by simp)
        · exact absurd h (by simp)
  · exact mem_get_image_files_ne_empty

/-- Witness for C1 at a concrete selection and list. -/
theorem render_pass_selection_invariant_witness :
    "a.png" ∈ ["a.png", "b.png"] :=
  render_pass_selection_invariant.1 (some "a.png") ["a.png", "b.png"] "a.png"
    (fun t ht => by cases ht; decide) (by decide)

/-- Disabled condition of the Previous button (`app.py` line 115):
`disabled=(current_index == 0)`. -/
def prev_disabled (current_index : Nat) : Bool := current_index == 0

/-- Disabled condition of the Next button (`app.py` line 121):
`disabled=(current_index == len(image_files) - 1)`. -/
def next_disabled (current_index L : Nat) : Bool := current_index == L - 1

/-- The three focused-view interactions. -/
inductive NavAction where
  | prev
  | next
  | back

/-- One interaction in the focused view (`app.py` lines 104-134): look up
the selected image's index (a failed lookup is the `ValueError` handler,
which resets to the gallery), then apply the clicked button; a disabled
button cannot be clicked, so the selection is unchanged there.  `none` is
the gallery state. -/
def focused_view_step (files : List String) (sel : String) (act : NavAction) :
    Option String :=
  match image_index files sel with
  | none => none
  | some i =>
    match act with
    | NavAction.prev => if prev_disabled i then some sel else files[i - 1]?
    | NavAction.next => if next_disabled i files.length then some sel else files[i + 1]?
    | NavAction.back => none

/-- The View button of grid item `i` (`app.py` lines 193-201) assigns the
`i`-th element of the current list to the selection. -/
def view_click (files : List String) (i : Nat) : Option String := files[i]?

/-- C9: every transition that sets a selection — View, next and previous —
assigns a path that is an element of the current image file list, so these
operations preserve the membership invariant by construction. -/
theorem selection_assignment_membership :
    (∀ (files : List String) (i : Nat) (s : String),
      view_click files i = some s → s ∈ files) ∧
    (∀ (files : List String) (sel : String) (act : NavAction) (s : String),
      focused_view_step files sel act = some s → s ∈ files) := by
  constructor
  · intro files i s h
    exact List.getElem?_mem h
  · intro files sel act s h
    by_cases hm : sel ∈ files
    · have hidx : image_index files sel = some (List.indexOf sel files) := by
        unfold image_index; rw [if_pos hm]
      cases act with
      | prev =>
        simp only [focused_view_step, hidx] at h
        by_cases hd : prev_disabled (List.indexOf sel files)
        · rw [if_pos hd] at h
          cases h
          exact hm
        · rw [if_neg hd] at h
          exact List.getElem?_mem h
      | next =>
        simp only [focused_view_step, hidx] at h
        by_cases hd : next_disabled (List.indexOf sel files) files.length
        · rw [if_pos hd] at h
          cases h
          exact hm
        · rw [if_neg hd] at h
          exact List.getElem?_mem h
      | back =>
        simp only [focused_view_step, hidx] at h
        exact absurd h (by simp)
    · have hidx : image_index files sel = none := by
        unfold image_index; rw [if_neg hm]
      simp only [focused_view_step, hidx] at h
      exact absurd h (by simp)

/-- Witness for C9 at a concrete list and index. -/
theorem selection_assignment_membership_witness :
    "b" ∈ ["a", "b"] :=
  selection_assignment_membership.1 ["a", "b"] 1 "b" (by decide)


theorem focused_view_step_eq (files : List String) (sel : String) (i : Nat)
    (h : image_index files sel = some i) :
    (focused_view_step files sel NavAction.next =
      if next_disabled i files.length then some sel else files[i + 1]?) ∧
    (focused_view_step files sel NavAction.prev =
      if prev_disabled i then some sel else files[i - 1]?) := by
  unfold focused_view_step
  rw [h]
  exact ⟨rfl, rfl⟩

theorem image_index_getElem (files : List String) (hnod : files.Nodup)
    (j : Nat) (hj : j < files.length) :
    image_index files (files[j]) = some j := by
  unfold image_index
  rw [if_pos (List.getElem_mem hj)]
  rw [List.indexOf_getElem hnod j hj]

/-- C3: in the focused view at index `i`, next is available exactly when
`i + 1 < length` and then moves the focus to index `i + 1`; previous is
available exactly when `i - 1 ≥ 0` (as an integer) and then moves to
`i - 1`; a disabled button is a no-op, not an error; concretely, next from
index 2 of a 5-element list focuses index 3, and next at index 4 is a
no-op. -/
theorem nav_next_prev_spec :
    (∀ (files : List String) (sel : String) (i : Nat),
      image_index files sel = some i →
      (next_disabled i files.length = false ↔ i + 1 < files.length) ∧
      (prev_disabled i = false ↔ 0 ≤ (i : ℤ) - 1) ∧
      (files.Nodup → i + 1 < files.length →
        (focused_view_step files sel NavAction.next).bind (image_index files) =
          some (i + 1)) ∧
      (i + 1 = files.length → focused_view_step files sel NavAction.next = some sel) ∧
      (files.Nodup → 1 ≤ i →
        (focused_view_step files sel NavAction.prev).bind (image_index files) =
          some (i - 1)) ∧
      (i = 0 → focused_view_step files sel NavAction.prev = some sel)) ∧
    (focused_view_step ["a", "b", "c", "d", "e"] "c" NavAction.next = some "d" ∧
     image_index ["a", "b", "c", "d", "e"] "d" = some 3 ∧
     focused_view_step ["a", "b", "c", "d", "e"] "e" NavAction.next = some "e") := by
  constructor
  · intro files sel i hsel
    have hmem : sel ∈ files := by
      by_contra hm
      simp [image_index, hm] at hsel
    have hi : List.indexOf sel files = i := by
      simp [image_index, hmem] at hsel
      exact hsel
    have hlt : i < files.length := by
      rw [← hi]
      exact List.indexOf_lt_length.mpr hmem
    have hnd_iff : next_disabled i files.length = false ↔ i + 1 < files.length := by
      unfold next_disabled
      rw [beq_eq_false_iff_ne]
      omega
    have hpd_iff : prev_disabled i = false ↔ 0 ≤ (i : ℤ) - 1 := by
      unfold prev_disabled
      rw [beq_eq_false_iff_ne]
      omega
    refine ⟨hnd_iff, hpd_iff, ?_, ?_, ?_, ?_⟩
    · intro hnod hin
      rw [(focused_view_step_eq files sel i hsel).1]
      rw [hnd_iff.mpr hin]
      rw [if_neg (by simp)]
      rw [List.getElem?_eq_getElem hin]
      rw [Option.some_bind]
      exact image_index_getElem files hnod (i + 1) hin
    · intro hend
      rw [(focused_view_step_eq files sel i hsel).1]
      rw [if_pos (by unfold next_disabled; rw [beq_iff_eq]; omega)]
    · intro hnod hge
      have hin : i - 1 < files.length := by omega
      rw [(focused_view_step_eq files sel i hsel).2]
      rw [show prev_disabled i = false by unfold prev_disabled; rw [beq_eq_false_iff_ne]; omega]
      rw [if_neg (by simp)]
      rw [List.getElem?_eq_getElem hin]
      rw [Option.some_bind]
      exact image_index_getElem files hnod (i - 1) hin
    · intro h0
      rw [(focused_view_step_eq files sel i hsel).2]
      rw [if_pos (by unfold prev_disabled; rw [beq_iff_eq]; exact h0)]
  · exact ⟨by decide, by decide, by decide⟩

/-- Witness for C3: the availability equivalence at a concrete focus. -/
theorem nav_next_prev_spec_witness :
    next_disabled 2 (List.length ["a", "b", "c", "d", "e"]) = false ↔
      2 + 1 < List.length ["a", "b", "c", "d", "e"] :=
  (nav_next_prev_spec.1 ["a", "b", "c", "d", "e"] "c" 2 (by decide)).1

/-- Embedding of the dimension-collecting loop of the gallery tab
(`app.py` lines 152-158): `dims f = none` models `Image.open(f)` raising,
which the `except` clause turns into a skip. -/
def all_dimensions (dims : String → Option (Nat × Nat)) : List String → List (Nat × Nat)
  | [] => []
  | f :: rest =>
    match dims f with
    | some s => s :: all_dimensions dims rest
    | none => all_dimensions dims rest

/-- Embedding of the dimension-collecting loop of the analysis tab
(`app.py` lines 212-218): identical control flow, the failure branch only
adds a warning message. -/
def image_dims (dims : String → Option (Nat × Nat)) : List String → List (Nat × Nat)
  | [] => []
  | img_path :: rest =>
    match dims img_path with
    | some s => s :: image_dims dims rest
    | none => image_dims dims rest

theorem all_dimensions_append (dims : String → Option (Nat × Nat))
    (l₁ l₂ : List String) :
    all_dimensions dims (l₁ ++ l₂) = all_dimensions dims l₁ ++ all_dimensions dims l₂ := by
  induction l₁ with
  | nil => rfl
  | cons f rest ih =>
    simp only [List.cons_append, all_dimensions]
    match dims f with
    | some s => simp [ih]
    | none => simp [ih]

theorem image_dims_eq_all_dimensions (dims : String → Option (Nat × Nat))
    (files : List String) : image_dims dims files = all_dimensions dims files := by
  induction files with
  | nil => rfl
  | cons f rest ih =>
    simp only [image_dims, all_dimensions]
    match dims f with
    | some s => simp [ih]
    | none => simp [ih]

theorem all_dimensions_eq_filterMap (dims : String → Option (Nat × Nat))
    (files : List String) :
    all_dimensions dims files = files.filterMap dims := by
  induction files with
  | nil => rfl
  | cons f rest ih =>
    simp only [all_dimensions, List.filterMap_cons]
    match hf : dims f with
    | some s => simp [ih]
    | none => simp [ih]

theorem mem_all_dimensions (dims : String → Option (Nat × Nat))
    (files : List String) (d : Nat × Nat) :
    d ∈ all_dimensions dims files ↔ ∃ g ∈ files, dims g = some d := by
  rw [all_dimensions_eq_filterMap]
  simp [List.mem_filterMap]

/-- C7: a file that fails to decode is skipped with no effect on the
dimensions collected from the remaining files, in both the gallery-tab and
the analysis-tab loops, and every collected dimension comes from a file
that decoded successfully (so failures are excluded from aggregates). -/
theorem unreadable_file_skipped :
    ∀ (dims : String → Option (Nat × Nat)) (pre post : List String) (f : String),
      dims f = none →
      (all_dimensions dims (pre ++ f :: post) =
        all_dimensions dims pre ++ all_dimensions dims post ∧
       image_dims dims (pre ++ f :: post) =
        image_dims dims pre ++ image_dims dims post ∧
       ∀ (files : List String) (d : Nat × Nat),
         d ∈ all_dimensions dims files ↔ ∃ g ∈ files, dims g = some d) := by
  intro dims pre post f hf
  have hskip : all_dimensions dims (f :: post) = all_dimensions dims post := by
    simp only [all_dimensions, hf]
  refine ⟨?_, ?_, mem_all_dimensions dims⟩
  · rw [all_dimensions_append, hskip]
  · rw [image_dims_eq_all_dimensions, image_dims_eq_all_dimensions,
      image_dims_eq_all_dimensions, all_dimensions_append, hskip]

/-- Witness for C7 at a concrete decoder and file list. -/
theorem unreadable_file_skipped_witness :
    all_dimensions (fun f => if f = "bad" then none else some (1, 1))
        (["a"] ++ "bad" :: ["b"]) =
      all_dimensions (fun f => if f = "bad" then none else some (1, 1)) ["a"] ++
        all_dimensions (fun f => if f = "bad" then none else some (1, 1)) ["b"] :=
  (unreadable_file_skipped (fun f => if f = "bad" then none else some (1, 1))
    ["a"] ["b"] "bad" (by decide)).1

/-- The generator `sum(os.path.getsize(f) for f in image_files)`: sizes
are added left to right; `getsize f = none` models `os.path.getsize`
raising `OSError`, which aborts the whole sum — there is no handler around
`app.py` line 146. -/
def sum_sizes (getsize : String → Option Nat) : List String → Option Nat
  | [] => some 0
  | f :: rest =>
    match getsize f with
    | none => none
    | some s => (sum_sizes getsize rest).map (fun acc => s + acc)

/-- Embedding of `app.py` line 146:
`sum(os.path.getsize(f) for f in image_files) if image_files else 0`;
`none` is an uncaught `OSError` escaping to the render. -/
def total_size_bytes (getsize : String → Option Nat) (files : List String) :
    Option Nat :=
  if files.isEmpty then some 0 else sum_sizes getsize files

/-- C6 (amended): the total byte size is the sum of the per-file sizes
when every listed file is readable for size; a file unreadable for size
makes the computation raise (the `OSError` escapes — line 146 has no
handler), rather than being skipped. -/
theorem sum_sizes_all_some (getsize : String → Option Nat) (files : List String) :
    (∀ f ∈ files, (getsize f).isSome) →
      sum_sizes getsize files = some ((files.filterMap getsize).sum) := by
  induction files with
  | nil => intro _; rfl
  | cons f rest ih =>
    intro hall
    have hf := hall f (List.mem_cons_self f rest)
    match hgf : getsize f with
    | none =>
      rw [hgf] at hf
      exact absurd hf (by simp)
    | some s =>
      simp only [sum_sizes, hgf, List.filterMap_cons]
      rw [ih (fun g hg => hall g (List.mem_cons_of_mem f hg))]
      simp

theorem total_size_bytes_spec :
    ∀ (getsize : String → Option Nat) (files : List String),
      ((∀ f ∈ files, (getsize f).isSome) →
        total_size_bytes getsize files = some ((files.filterMap getsize).sum)) ∧
      (∀ f ∈ files, getsize f = none → total_size_bytes getsize files = none) := by
  intro getsize files
  constructor
  · intro hall
    unfold total_size_bytes
    cases files with
    | nil => rfl
    | cons a l =>
      rw [if_neg (by simp)]
      exact sum_sizes_all_some getsize (a :: l) hall
  · intro f hf hnone
    unfold total_size_bytes
    rw [if_neg (by cases files with | nil => exact absurd hf (by simp) | cons a l => simp)]
    induction files with
    | nil => exact absurd hf (by simp)
    | cons a l ih =>
      simp only [sum_sizes]
      rcases List.mem_cons.mp hf with rfl | hmem
      · rw [hnone]
      · match ha : getsize a with
        | none => rfl
        | some s => rw [ih hmem]; rfl

/-- A size oracle under which only `a.png` is readable for size. -/
def cexSizes : String → Option Nat := fun f => if f = "a.png" then some 5 else none

/-- C6 counterexample: with `b.png` unreadable for size, the line-146 sum
raises (modelled `none`) instead of skipping the file and returning the
sum 5 of the readable sizes, refuting 'skipped rather than fatal, never
raises'. -/
theorem total_size_bytes_cex :
    total_size_bytes cexSizes ["a.png", "b.png"] = none ∧
    (List.filterMap cexSizes ["a.png", "b.png"]).sum = 5 := by
  exact ⟨rfl, rfl⟩

/-- Witness for C6 (amended) on an all-readable list. -/
theorem total_size_bytes_spec_witness :
    total_size_bytes cexSizes ["a.png"] = some ((List.filterMap cexSizes ["a.png"]).sum) :=
  (total_size_bytes_spec cexSizes ["a.png"]).1 (by decide)

/-- First-occurrence deduplication: the key order of a Python dict (and
hence of `collections.Counter`), which remembers insertion order. -/
def firstDedup {α : Type} [DecidableEq α] : List α → List α
  | [] => []
  | a :: l => a :: (firstDedup l).filter (fun b => b ≠ a)

/-- The items of `Counter(all_dimensions)`: each distinct value in
first-encountered order, paired with its multiplicity. -/
def counterItems (l : List (Nat × Nat)) : List ((Nat × Nat) × Nat) :=
  (firstDedup l).map (fun d => (d, l.count d))

/-- The key ordering of `Counter.most_common()`: higher count first. -/
def countGE (x y : (Nat × Nat) × Nat) : Prop := y.2 ≤ x.2

instance : DecidableRel countGE := fun x y => Nat.decLe y.2 x.2

instance : IsTotal ((Nat × Nat) × Nat) countGE :=
  ⟨fun x y => (Nat.le_total y.2 x.2).elim Or.inl Or.inr⟩

instance : IsTrans ((Nat × Nat) × Nat) countGE :=
  ⟨fun _ _ _ h₁ h₂ => Nat.le_trans h₂ h₁⟩

/-- `Counter.most_common()` with no argument: the items sorted by count
descending; CPython implements it as `sorted(self.items(), ...)`, a stable
sort, which insertion sort reproduces. -/
def most_common (items : List ((Nat × Nat) × Nat)) : List ((Nat × Nat) × Nat) :=
  List.insertionSort countGE items

/-- The dimension histogram of `app.py` lines 160-176: the `most_common`
pairs, each with `percentage = count / total_images_with_dims * 100`. -/
def dimension_histogram (dims : String → Option (Nat × Nat)) (files : List String) :
    List ((Nat × Nat) × Nat × ℚ) :=
  let all := all_dimensions dims files
  (most_common (counterItems all)).map
    (fun e => (e.1, e.2, (e.2 : ℚ) / (all.length : ℚ) * 100))

theorem filter_orderedInsert_countEq (c : Nat) (a : (Nat × Nat) × Nat)
    (l : List ((Nat × Nat) × Nat)) :
    (List.orderedInsert countGE a l).filter (fun e => e.2 == c) =
      if a.2 == c then a :: l.filter (fun e => e.2 == c)
      else l.filter (fun e => e.2 == c) := by
  induction l with
  | nil =>
    by_cases hac : (a.2 == c) = true <;> simp [List.orderedInsert, List.filter, hac]
  | cons b t ih =>
    simp only [List.orderedInsert]
    by_cases hab : countGE a b
    · rw [if_pos hab]
      by_cases hac : (a.2 == c) = true <;> simp [List.filter_cons, hac]
    · rw [if_neg hab]
      have hlt : a.2 < b.2 := Nat.lt_of_not_le hab
      by_cases hac : (a.2 == c) = true
      · have hbc : (b.2 == c) = false := by
          rw [beq_eq_false_iff_ne]
          have := beq_iff_eq.mp hac
          omega
        simp [List.filter_cons, hbc, ih, hac]
      · have hac2 : (a.2 == c) = false := by
          rw [Bool.not_eq_true] at hac
          exact hac
        by_cases hbc : (b.2 == c) = true <;>
          simp [List.filter_cons, hbc, ih, hac2]

theorem filter_insertionSort_countEq (c : Nat) (l : List ((Nat × Nat) × Nat)) :
    (List.insertionSort countGE l).filter (fun e => e.2 == c) =
      l.filter (fun e => e.2 == c) := by
  induction l with
  | nil => rfl
  | cons a t ih =>
    simp only [List.insertionSort]
    rw [filter_orderedInsert_countEq, ih]
    by_cases hac : (a.2 == c) = true <;> simp [List.filter_cons, hac]

/-- The decoder used by the concrete C5 example: three 100x100 images and
one 200x200 image. -/
def exDims : String → Option (Nat × Nat) :=
  fun f => if f = "d.png" then some (200, 200) else some (100, 100)

/-- The file list of the concrete C5 example. -/
def exFiles : List String := ["a.png", "b.png", "c.png", "d.png"]


/-- C5: the dimension histogram pairs each distinct (width, height) among
the successfully decoded images with its count and with
`count / number-of-successfully-read-images * 100`, ordered by descending
count, ties kept in first-encountered order (stable sort); on dimensions
(100,100) x3 and (200,200) x1 it yields 75% before 25%. -/
theorem dimension_histogram_spec :
    (∀ (dims : String → Option (Nat × Nat)) (files : List String),
      ((dimension_histogram dims files).map Prod.fst).Perm
        (firstDedup (all_dimensions dims files)) ∧
      (∀ e ∈ dimension_histogram dims files,
        e.2.1 = (all_dimensions dims files).count e.1 ∧
        e.2.2 = ((all_dimensions dims files).count e.1 : ℚ) /
          ((all_dimensions dims files).length : ℚ) * 100) ∧
      (dimension_histogram dims files).Pairwise (fun x y => y.2.1 ≤ x.2.1) ∧
      (∀ c : Nat,
        ((dimension_histogram dims files).filter (fun e => e.2.1 == c)).map Prod.fst =
          (firstDedup (all_dimensions dims files)).filter
            (fun d => (all_dimensions dims files).count d == c))) ∧
    dimension_histogram exDims exFiles =
      [((100, 100), 3, (75 : ℚ)), ((200, 200), 1, (25 : ℚ))] := by
  constructor
  · intro dims files
    refine ⟨?_, ?_, ?_, ?_⟩
    · simp only [dimension_histogram]
      rw [List.map_map]
      refine ((List.perm_insertionSort countGE _).map _).trans ?_
      simp only [counterItems]
      rw [List.map_map]
      have hid : ((Prod.fst ∘ fun e : (Nat × Nat) × Nat => (e.1, e.2,
          (e.2 : ℚ) / ((all_dimensions dims files).length : ℚ) * 100)) ∘
          (fun d => (d, (all_dimensions dims files).count d))) = id := rfl
      rw [hid, List.map_id]
    · intro e he
      simp only [dimension_histogram] at he
      obtain ⟨x, hx, rfl⟩ := List.mem_map.mp he
      have hx2 : x ∈ counterItems (all_dimensions dims files) :=
        (List.mem_insertionSort countGE).mp hx
      obtain ⟨d, _, rfl⟩ := List.mem_map.mp hx2
      exact ⟨rfl, rfl⟩
    · simp only [dimension_histogram]
      rw [List.pairwise_map]
      exact List.sorted_insertionSort countGE _
    · intro c
      simp only [dimension_histogram]
      rw [List.filter_map, List.map_map]
      have hcomp : ((fun e : (Nat × Nat) × Nat × ℚ => e.2.1 == c) ∘
          (fun e : (Nat × Nat) × Nat => (e.1, e.2,
            (e.2 : ℚ) / ((all_dimensions dims files).length : ℚ) * 100))) =
          (fun e : (Nat × Nat) × Nat => e.2 == c) := rfl
      rw [hcomp]
      simp only [most_common]
      rw [filter_insertionSort_countEq]
      simp only [counterItems]
      rw [List.filter_map, List.map_map]
      have hcomp2 : ((fun e : (Nat × Nat) × Nat => e.2 == c) ∘
          (fun d => (d, (all_dimensions dims files).count d))) =
          (fun d => (all_dimensions dims files).count d == c) := rfl
      rw [hcomp2]
      have hcomp3 : ((Prod.fst ∘ fun e : (Nat × Nat) × Nat => (e.1, e.2,
          (e.2 : ℚ) / ((all_dimensions dims files).length : ℚ) * 100)) ∘
          (fun d => (d, (all_dimensions dims files).count d))) = id := rfl
      rw [hcomp3, List.map_id]
  · have hmc : most_common (counterItems (all_dimensions exDims exFiles)) =
        [((100, 100), 3), ((200, 200), 1)] := by decide
    have hlen : (all_dimensions exDims exFiles).length = 4 := by decide
    simp only [dimension_histogram, hmc, hlen, List.map_cons, List.map_nil]
    norm_num

/-- Witness for C5: the count/percentage formula at a concrete histogram
entry. -/
theorem dimension_histogram_spec_witness :
    ((100, 100), 3, (75 : ℚ)).2.1 =
      (all_dimensions exDims exFiles).count ((100, 100), 3, (75 : ℚ)).1 ∧
    ((100, 100), 3, (75 : ℚ)).2.2 =
      ((all_dimensions exDims exFiles).count ((100, 100), 3, (75 : ℚ)).1 : ℚ) /
        ((all_dimensions exDims exFiles).length : ℚ) * 100 :=
  (dimension_histogram_spec.1 exDims exFiles).2.1 ((100, 100), 3, (75 : ℚ))
    (by rw [dimension_histogram_spec.2]
        exact List.mem_cons_self _ _)

/-- Modelled from the spec: the on-disk states `BookmarkStore.load()` can
meet — no file, unparsable content, or a parsed JSON list of paths.  The
Bookmark Store (spec section 4.3) has no implementation under `src/`. -/
inductive BookmarkFile where
  | missing
  | corrupt
  | parsed (paths : List String)

/-- Modelled from the spec: `BookmarkStore.load()` (spec sections 4.3 and
8) — on missing file, parse failure or empty content it returns the
single-element default list containing the current-directory marker;
otherwise the parsed list deduplicated (set semantics) and sorted
ascending.  Total, so it never raises to the caller. -/
def BookmarkStore.load : BookmarkFile → List String
  | BookmarkFile.missing => ["."]
  | BookmarkFile.corrupt => ["."]
  | BookmarkFile.parsed [] => ["."]
  | BookmarkFile.parsed (p :: rest) =>
      List.insertionSort (· ≤ ·) (firstDedup (p :: rest))

/-- C8: `load()` yields the default `["."]` on a missing file, a parse
failure and empty content, never raising (it is total), and on
`["./a", "./a", "./b"]` yields the deduplicated sorted `["./a", "./b"]`. -/
theorem bookmark_load_spec :
    BookmarkStore.load BookmarkFile.missing = ["."] ∧
    BookmarkStore.load BookmarkFile.corrupt = ["."] ∧
    BookmarkStore.load (BookmarkFile.parsed []) = ["."] ∧
    BookmarkStore.load (BookmarkFile.parsed ["./a", "./a", "./b"]) = ["./a", "./b"] := by
  refine ⟨rfl, rfl, rfl, ?_⟩
  have hd : firstDedup ["./a", "./a", "./b"] = ["./a", "./b"] := by decide
  have hab : ("./a" : String) ≤ "./b" := by
    rw [String.le_iff_toList_le]
    decide
  simp only [BookmarkStore.load, hd, List.insertionSort, List.orderedInsert]
  rw [if_pos hab]

/-- The unit labels of `format_bytes` (`app.py` line 41): the Python dict
`{0: 'B', 1: 'KB', 2: 'MB', 3: 'GB', 4: 'TB'}` as a list indexed by `n`. -/
def power_labels : List String := ["B", "KB", "MB", "GB", "TB"]

/-- The `while` loop of `format_bytes` (`app.py` lines 42-44) over exact
rationals: a binary float divided by 1024 only shifts its exponent, so
outside the subnormal range the division is exact and `ℚ` models it. -/
def format_bytes_loop (size_bytes : ℚ) (n : Nat) : ℚ × Nat :=
  if 1024 ≤ size_bytes ∧ n < power_labels.length - 1 then
    format_bytes_loop (size_bytes / 1024) (n + 1)
  else (size_bytes, n)
termination_by power_labels.length - 1 - n
decreasing_by
  rename_i h
  omega

/-- The `f"{x:.2f}"` rendering: the value rounded to two decimals, printed
with two fractional digits.  (CPython rounds the binary float half to
even; `round` differs from that only on exact halves, which no claim about
`format_bytes` depends on.) -/
def formatFixed2 (q : ℚ) : String :=
  let m : Int := round (q * 100)
  toString (m / 100) ++ "." ++
    (if (m % 100).toNat < 10 then "0" else "") ++ toString (m % 100).toNat

/-- Embedding of `format_bytes` (`app.py` lines 35-45). -/
def format_bytes (size_bytes : ℚ) : String :=
  if size_bytes = 0 then "0B"
  else
    let r := format_bytes_loop size_bytes 0
    formatFixed2 r.1 ++ " " ++ power_labels.getD r.2 ""

/-- Python `s.endswith(t)` on the embedded strings. -/
def strEndsWith (s t : String) : Bool := t.data.isSuffixOf s.data

theorem format_bytes_loop_n_le :
    ∀ (k : Nat) (q : ℚ) (n : Nat), 4 - n ≤ k → n ≤ 4 →
      (format_bytes_loop q n).2 ≤ 4 := by
  intro k
  induction k with
  | zero =>
    intro q n hk hn
    have hn4 : n = 4 := by omega
    unfold format_bytes_loop
    rw [if_neg (by simp [power_labels]; omega)]
    simpa using hn
  | succ k ih =>
    intro q n hk hn
    unfold format_bytes_loop
    split
    · rename_i h
      have hlt : n < 4 := by
        have := h.2
        simpa [power_labels] using this
      exact ih (q / 1024) (n + 1) (by omega) (by omega)
    · simpa using hn

/-- C10: on every non-negative input the `format_bytes` loop terminates
with at most 4 iterations (the counter `n` starts at 0, increments once
per iteration and the guard keeps `n < len(power_labels) - 1 = 4`), the
returned string ends in one of the labels B, KB, MB, GB, TB, and
`format_bytes 0 = "0B"`. -/
theorem format_bytes_spec :
    (∀ q : ℚ, 0 ≤ q →
      (format_bytes_loop q 0).2 ≤ 4 ∧
      ∃ lab ∈ power_labels, strEndsWith (format_bytes q) lab = true) ∧
    format_bytes 0 = "0B" := by
  have h0B : format_bytes 0 = "0B" := by
    simp [format_bytes]
  constructor
  · intro q hq
    refine ⟨format_bytes_loop_n_le 4 q 0 (by omega) (by omega), ?_⟩
    by_cases hz : q = 0
    · subst hz
      rw [h0B]
      exact ⟨"B", by decide, by decide⟩
    · have hfb : format_bytes q =
          formatFixed2 (format_bytes_loop q 0).1 ++ " " ++
            power_labels.getD (format_bytes_loop q 0).2 "" := by
        simp [format_bytes, hz]
      have hn : (format_bytes_loop q 0).2 ≤ 4 :=
        format_bytes_loop_n_le 4 q 0 (by omega) (by omega)
      have hlt : (format_bytes_loop q 0).2 < power_labels.length := by
        simp only [power_labels, List.length_cons, List.length_nil]
        omega
      refine ⟨power_labels.getD (format_bytes_loop q 0).2 "", ?_, ?_⟩
      · rw [List.getD_eq_getElem _ _ hlt]
        exact List.getElem_mem hlt
      · rw [hfb]
        unfold strEndsWith
        refine List.isSuffixOf_iff_suffix.mpr ?_
        rw [String.data_append]
        exact List.suffix_append _ _
  · exact h0B

/-- Witness for C10 at the concrete input 2048. -/
theorem format_bytes_spec_witness :
    (format_bytes_loop 2048 0).2 ≤ 4 ∧
    ∃ lab ∈ power_labels, strEndsWith (format_bytes 2048) lab = true :=
  format_bytes_spec.1 2048 (by norm_num)
